import Mathlib

/-!
Verification development for the MedInsight document-navigation and
citation-highlighting front end.  JavaScript strings are embedded as
`List Char`; the relevant functions of `Docs.jsx`, `Settings.jsx` and the
chat page (`highlightTextToHTML`, `pdfHighlights`, …) are translated into
executable Lean definitions below, and the stated properties are proved
about those definitions.
-/

set_option maxRecDepth 4000

/-- JavaScript strings are modelled as lists of characters. -/
abbrev Str := List Char

/-- The ASCII whitespace characters recognised by the JavaScript `\s`
class and `String.trim` (tab, LF, VT, FF, CR, space); the inputs handled
by the app contain no exotic Unicode spaces, so the ASCII subset is the
faithful fragment. -/
def isWsJs (c : Char) : Bool := c.toNat = 9 || c.toNat = 10 || c.toNat = 11 || c.toNat = 12 || c.toNat = 13 || c.toNat = 32

/-- ASCII lower-casing of one character, the fragment of JavaScript
`toLowerCase` exercised by the app's ASCII file names and snippets. -/
def lowerChar (c : Char) : Char :=
  if 65 ≤ c.toNat ∧ c.toNat ≤ 90 then Char.ofNat (c.toNat + 32) else c

/-- JavaScript `toLowerCase` on a whole string. -/
def lowerStr (s : Str) : Str := s.map lowerChar

/-- Alphanumeric test matching the regex class `[a-zA-Z0-9]`. -/
def isAlnum (c : Char) : Bool :=
  (97 ≤ c.toNat && c.toNat ≤ 122) || (65 ≤ c.toNat && c.toNat ≤ 90) || (48 ≤ c.toNat && c.toNat ≤ 57)

/-- Drop leading whitespace (the left half of JavaScript `trim`). -/
def ltrimWs (s : Str) : Str := s.dropWhile isWsJs

/-- Drop trailing whitespace (the right half of JavaScript `trim`). -/
def rtrimWs (s : Str) : Str := (s.reverse.dropWhile isWsJs).reverse

/-- JavaScript `String.prototype.trim`. -/
def jsTrim (s : Str) : Str := rtrimWs (ltrimWs s)

/-- Concatenation of the images of `f`, the JavaScript `Array.flatMap`. -/
def concatMap (f : α → List β) : List α → List β
  | [] => []
  | a :: t => f a ++ concatMap f t

/-- Join a list of strings with a one-character separator, the JavaScript
`Array.join(sep)`. -/
def joinSep (sep : Char) : List Str → Str
  | [] => []
  | [w] => w
  | w :: ws => w ++ sep :: joinSep sep ws

/-- Split a string at every occurrence of a one-character separator, the
JavaScript `String.split(sep)`: boundary occurrences produce empty
pieces and the result is never the empty list. -/
def splitSep (sep : Char) : Str → List Str
  | [] => [[]]
  | c :: rest =>
    if c = sep then [] :: splitSep sep rest
    else
      match splitSep sep rest with
      | [] => [[c]]
      | w :: ws => (c :: w) :: ws

/-- Insert `x` into `l` in front of the first element `y` with `le x y`;
the auxiliary step of a stable insertion sort. -/
def insertLe (le : α → α → Bool) (x : α) : List α → List α
  | [] => [x]
  | y :: ys => if le x y then x :: y :: ys else y :: insertLe le x ys

/-- Stable insertion sort.  ECMAScript requires `Array.prototype.sort` to
be stable and to treat a non-negative/non-positive comparison (including
NaN, coerced to +0) as the ordering test, which this realises with
`le a b` meaning "the comparator on (a, b) is ≤ 0". -/
def sortLeList (le : α → α → Bool) : List α → List α
  | [] => []
  | x :: xs => insertLe le x (sortLeList le xs)

/-- Deduplication keeping first occurrences, the order in which a
JavaScript `Set` built from an array iterates. -/
def dedupGo (seen : List Str) : List Str → List Str
  | [] => []
  | x :: rest => if x ∈ seen then dedupGo seen rest else x :: dedupGo (x :: seen) rest

/-- `Array.from(new Set(l))`: `l` without its duplicate entries, first
occurrences kept in order. -/
def jsSetDedup (l : List Str) : List Str := dedupGo [] l

/-- JavaScript `String.includes(pat)`: `pat` occurs as a contiguous
substring. -/
def jsIncludes (pat : Str) : Str → Bool
  | [] => pat.isPrefixOf []
  | c :: t => pat.isPrefixOf (c :: t) || jsIncludes pat t

/-- JavaScript `s.replace(pat, "")` for a plain-string pattern: remove
the first occurrence of `pat` (no-op when there is none). -/
def jsRemoveFirst (pat : Str) : Str → Str
  | [] => []
  | c :: t => if pat.isPrefixOf (c :: t) then (c :: t).drop pat.length else c :: jsRemoveFirst pat t

/-- Three-valued string comparison by code units, the fragment of
`localeCompare` exercised by the app's ASCII object keys (returns the
sign expected by a JavaScript sort comparator). -/
def strCmpInt : Str → Str → Int
  | [], [] => 0
  | [], _ :: _ => -1
  | _ :: _, [] => 1
  | a :: as, b :: bs =>
    if a.toNat < b.toNat then -1 else if b.toNat < a.toNat then 1 else strCmpInt as bs

/-- Worker for `jsSplitWs`: `inWs` records whether the previous character
belonged to a whitespace run (so that a run yields a single split). -/
def jsSplitWsGo : Str → Str → Bool → List Str
  | [], cur, _ => [cur.reverse]
  | c :: rest, cur, inWs =>
    if isWsJs c then
      if inWs then jsSplitWsGo rest [] true
      else cur.reverse :: jsSplitWsGo rest [] true
    else jsSplitWsGo rest (c :: cur) false

/-- JavaScript `String.split(/\s+/)`: split on maximal whitespace runs,
with an empty leading (resp. trailing) piece when the string starts
(resp. ends) with whitespace. -/
def jsSplitWs (s : Str) : List Str := jsSplitWsGo s [] false

/-- Worker for `collapseWs`: `prevWs` records whether the previous
character was whitespace (a run is replaced by one space). -/
def collapseWsGo : Str → Bool → Str
  | [], _ => []
  | c :: rest, prevWs =>
    if isWsJs c then
      if prevWs then collapseWsGo rest true else ' ' :: collapseWsGo rest true
    else c :: collapseWsGo rest false

/-- JavaScript `replace(/\s+/g, ' ')`: collapse every whitespace run into
a single space. -/
def collapseWs (s : Str) : Str := collapseWsGo s false

/-! ## Object-Store Navigator (`Docs.jsx`) -/

/-- A parsed `<Contents>` record from `listS3`.  The source keeps
`lastModified` as the raw string, `""` when the element is absent; we
model only what the code observes about it: `none` for a string on
which JavaScript `new Date(·).getTime()` is NaN (in particular `""`),
`some t` for a string parsing to epoch milliseconds `t`. -/
structure FileRec where
  key : Str
  size : Int
  lastModified : Option Int
deriving DecidableEq, Repr

/-- A file record extended with its Location-relative display name, the
`{ ...file, name }` spread in `sortedFilteredFiles`. -/
structure NamedFile where
  key : Str
  size : Int
  lastModified : Option Int
  name : Str
deriving DecidableEq, Repr

/-- The `sortKey` select: `'name' | 'size' | 'date'`. -/
inductive SortKey | name | size | date
deriving DecidableEq, Repr

/-- The `sortDir` select: `'asc' | 'desc'`. -/
inductive SortDir | asc | desc
deriving DecidableEq, Repr

/-- The comparator body of `sortedFilteredFiles` before the direction is
applied; `none` models a NaN comparison, which arises exactly when a
`lastModified` field fails to parse (`new Date("").getTime()` is NaN). -/
def cmpRaw : SortKey → NamedFile → NamedFile → Option Int
  | SortKey.name, a, b => some (strCmpInt a.name b.name)
  | SortKey.size, a, b => some (a.size - b.size)
  | SortKey.date, a, b =>
    match a.lastModified, b.lastModified with
    | some x, some y => some (x - y)
    | _, _ => none

/-- `sortDir === "asc" ? cmp : -cmp`; negation of NaN is NaN. -/
def sortCmp (k : SortKey) (d : SortDir) (a b : NamedFile) : Option Int :=
  (cmpRaw k a b).map (fun v => if d = SortDir.asc then v else -v)

/-- The ordering test realised by the ECMAScript sort: the comparator
value, with NaN coerced to +0, is ≤ 0. -/
def sortLeB (k : SortKey) (d : SortDir) (a b : NamedFile) : Bool :=
  decide ((sortCmp k d a b).getD 0 ≤ 0)

/-- The name-filter test of `sortedFilteredFiles` / `filteredFolders`:
`f ? x.name.toLowerCase().includes(f) : true` with
`f = filter.trim().toLowerCase()`. -/
def filterPass (flt name : Str) : Bool :=
  let f := lowerStr (jsTrim flt)
  if f = [] then true else jsIncludes f (lowerStr name)

/-- `sortedFilteredFiles` of `Docs.jsx`: attach Location-relative names
(`key.replace(prefix, "")`), keep the rows passing the name filter, and
stable-sort them with the selected key and direction. -/
def sortedFilteredFiles (pfx flt : Str) (k : SortKey) (d : SortDir)
    (files : List FileRec) : List NamedFile :=
  let list := (files.map (fun f => NamedFile.mk f.key f.size f.lastModified (jsRemoveFirst pfx f.key))).filter
    (fun x => filterPass flt x.name)
  sortLeList (sortLeB k d) list

/-- `pagedFiles`: `sortedFilteredFiles.slice(start, start + rowsPerPage)`
with `start = (page - 1) * rowsPerPage`. -/
def pagedFiles (sorted : List NamedFile) (page rows : Nat) : List NamedFile :=
  (sorted.drop ((page - 1) * rows)).take rows

/-- `totalPages = Math.max(1, Math.ceil(files.length / rowsPerPage))` —
note the source counts the **unfiltered** `files` array. -/
def totalPages (files : List FileRec) (rows : Nat) : Nat :=
  max 1 ((files.length + rows - 1) / rows)

/-- Modelled from the spec: `totalPages = max(1, ceil(filteredFileCount /
pageSize))`, stated over the filtered row count, for comparison with the
source's `totalPages`. -/
def specTotalPagesFiltered (filteredCount rows : Nat) : Nat :=
  max 1 ((filteredCount + rows - 1) / rows)

/-- The Next button: `setPage(p => Math.min(totalPages, p + 1))`. -/
def pagerNext (tp p : Nat) : Nat := min tp (p + 1)

/-- The Prev button: `setPage(p => Math.max(1, p - 1))`. -/
def pagerPrev (p : Nat) : Nat := max 1 (p - 1)

/-- `parentPrefix` of `Docs.jsx`: drop the last non-empty `/`-separated
segment and re-append the trailing separator. -/
def parentPrefix (p : Str) : Str :=
  if p = [] then []
  else
    let parts := ((splitSep '/' p).filter (fun s => s ≠ [])).dropLast
    if parts = [] then [] else joinSep '/' parts ++ ['/']

/-- The canonical Location made of the given segments: empty for no
segments, otherwise the segments joined and terminated by `/`. -/
def locOf (segs : List Str) : Str :=
  if segs = [] then [] else joinSep '/' segs ++ ['/']

/-! ## Prefix Memory (`mi_known_prefixes`) -/

/-- Parsing of the persisted known-prefix string:
`stored.split(",").map(s => s.trim()).filter(Boolean)`. -/
def parseKnown (s : Str) : List Str :=
  ((splitSep ',' s).map jsTrim).filter (fun w => w ≠ [])

/-- One `remember` step of the known-prefix store in `load`: merge the
new segments into the parsed set and persist
`Array.from(known).sort().join(",")`. -/
def rememberStr (stored : Str) (segs : List Str) : Str :=
  joinSep ',' (sortLeList (fun a b => decide (strCmpInt a b ≤ 0)) (jsSetDedup (parseKnown stored ++ segs)))

/-- First `/`-separated segment of a string, `s.split("/")[0]`. -/
def headSeg (s : Str) : Str := (splitSep '/' s).headD []

/-- The result `{ folders, files }` of one `listS3` call. -/
structure Listing where
  folders : List Str
  files : List FileRec
deriving DecidableEq, Repr

/-- The top-level segments `load` adds to the known-prefix store on a
successful listing: from the requested Location, from each folder, and
from each file key (each suffixed with `/`, empty heads skipped). -/
def topSegs (p : Str) (l : Listing) : List Str :=
  (if p ≠ [] then (let t := headSeg p; if t ≠ [] then [t ++ ['/']] else []) else [])
    ++ concatMap (fun f => let t := headSeg f; if t ≠ [] then [t ++ ['/']] else []) l.folders
    ++ concatMap (fun f => let t := headSeg f.key; if t ≠ [] then [t ++ ['/']] else []) l.files

/-! ## Hierarchy state (`Docs` component state and `load`) -/

/-- The `Docs` component state touched by `load`: the displayed Location
(`prefix`, here `pfx`), listing, error banner text, page number, the
ViewState controls, and the two persisted strings. -/
structure DocsState where
  pfx : Str
  folders : List Str
  files : List FileRec
  err : Str
  page : Nat
  filterText : Str
  sortKey : SortKey
  sortDir : SortDir
  lastStored : Str
  knownStored : Str
deriving DecidableEq, Repr

/-- The error banner text set by `load`'s catch branch. -/
def errMsg : Str := "❌ Failed to load from S3. Check bucket policy & CORS.".data

/-- The success branch of `load` once `listS3(pfx)` resolves: set the
listing, Location and page, persist the last Location, and merge the
observed top-level segments into the known-prefix store.  There is no
staleness check — the response is applied unconditionally. -/
def applyResponse (st : DocsState) (p : Str) (l : Listing) : DocsState :=
  { st with
    pfx := p
    folders := l.folders
    files := l.files
    page := 1
    lastStored := p
    knownStored := rememberStr st.knownStored (topSegs p l) }

/-- The observable events of one or more interleaved `load` calls:
`begin` is the synchronous head of `load` (`setLoading(true); setErr("")`),
`success pfx listing` is a resolved `listS3` response being applied, and
`failure` is the catch branch. -/
inductive DocsEv
  | begin
  | success (p : Str) (l : Listing)
  | failure
deriving DecidableEq, Repr

/-- One event applied to the component state. -/
def stepDocs (st : DocsState) : DocsEv → DocsState
  | DocsEv.begin => { st with err := [] }
  | DocsEv.success p l => applyResponse st p l
  | DocsEv.failure => { st with err := errMsg }

/-- A whole interleaving of `load` activity. -/
def runDocs (st : DocsState) (evs : List DocsEv) : DocsState := evs.foldl stepDocs st

/-- The Location and listing of the last `success` event of a trace, if
any. -/
def lastSuccessData : List DocsEv → Option (Str × Listing)
  | [] => none
  | e :: rest =>
    match lastSuccessData rest with
    | some x => some x
    | none =>
      match e with
      | DocsEv.success p l => some (p, l)
      | _ => none

/-- The `Docs` component state at mount with no stored preferences:
empty Location, empty listing, no error, page 1, empty filter, sort by
name ascending, empty persisted strings. -/
def initialDocsState : DocsState :=
  DocsState.mk [] [] [] [] 1 [] SortKey.name SortDir.asc [] []

/-- Modelled from the spec: the date ordering in which "entries without
a timestamp sort as epoch 0", for comparison with the source's date
comparator. -/
def specDateLeEpoch0 (d : SortDir) (a b : NamedFile) : Bool :=
  if d = SortDir.asc then decide (a.lastModified.getD 0 ≤ b.lastModified.getD 0)
  else decide (b.lastModified.getD 0 ≤ a.lastModified.getD 0)

/-- Modelled from the spec: stable date sort treating a missing
timestamp as epoch 0. -/
def specDateSortEpoch0 (d : SortDir) (l : List NamedFile) : List NamedFile :=
  sortLeList (specDateLeEpoch0 d) l

/-! ## Rows-per-page preference (`Settings.jsx` / `Docs.jsx`) -/

/-- True when every character is a decimal digit. -/
def allDigits (l : Str) : Bool := l.all (fun c => 48 ≤ c.toNat && c.toNat ≤ 57)

/-- Numeric value of a digit string. -/
def natOfDigits (l : Str) : Nat := l.foldl (fun n c => 10 * n + (c.toNat - 48)) 0

/-- JavaScript `Number(s)` on the decimal-literal fragment (optional
sign, integer and/or fractional digits; whitespace-only is 0); `none`
models NaN.  The Settings page only ever stores such literals, and the
claims quantify over arbitrary stored strings through this model. -/
def jsToNumber (s : Str) : Option ℚ :=
  let t := jsTrim s
  if t = [] then some 0
  else
    let su : Bool × Str :=
      match t with
      | '-' :: r => (true, r)
      | '+' :: r => (false, r)
      | _ => (false, t)
    match splitSep '.' su.2 with
    | [ip] =>
      if ip ≠ [] ∧ allDigits ip then
        some (if su.1 then -(natOfDigits ip : ℚ) else (natOfDigits ip : ℚ))
      else none
    | [ip, fp] =>
      if (ip ≠ [] ∨ fp ≠ []) ∧ allDigits ip ∧ allDigits fp then
        some (let v : ℚ := (natOfDigits ip : ℚ) + (natOfDigits fp : ℚ) / (10 ^ fp.length)
          if su.1 then -v else v)
      else none
    | _ => none

/-- `Math.min` on two non-NaN numbers. -/
def jsMin (a b : ℚ) : ℚ := if a ≤ b then a else b

/-- `Math.max` on two non-NaN numbers. -/
def jsMax (a b : ℚ) : ℚ := if a ≤ b then b else a

/-- The effective rows-per-page of `Docs.jsx`:
`Math.max(1, Math.min(500, Number(localStorage.getItem(...) || 50)))`.
`none` (no stored preference) and the empty string are falsy and give
50; a stored string that `Number` cannot parse gives NaN, which `min`
and `max` propagate — modelled by `none`. -/
def effRowsPerPage (stored : Option Str) : Option ℚ :=
  let n : Option ℚ :=
    match stored with
    | none => some 50
    | some s => if s = [] then some 50 else jsToNumber s
  n.map (fun q => jsMax 1 (jsMin 500 q))

/-! ## Citation Highlight Aligner (chat page) -/

/-- `normalizeText` of `highlightTextToHTML`: lowercase, replace every
character outside `[a-zA-Z0-9\s]` by a space, collapse whitespace runs,
trim. -/
def normalizeText (s : Str) : Str :=
  jsTrim (collapseWs ((lowerStr s).map (fun c => if isAlnum c || isWsJs c then c else ' ')))

/-- One fragment's test inside the `highlights.some(...)` of
`highlightTextToHTML`: exact normalized equality; for two single words,
equality again; for a multi-word fragment, every word of the text must
be among the fragment's words. -/
def matchesFragment (text h : Str) : Bool :=
  let nt := normalizeText text
  let nh := normalizeText h
  if nt = nh then true
  else if ¬ ' ' ∈ nh ∧ ¬ ' ' ∈ nt then decide (nt = nh)
  else if ' ' ∈ nh then (splitSep ' ' nt).all (fun w => decide (w ∈ splitSep ' ' nh))
  else false

/-- The `shouldHighlight` predicate of `highlightTextToHTML`. -/
def shouldHighlight (text : Str) (hs : List Str) : Bool := hs.any (matchesFragment text)

/-- `s.replace(/find/g, repl)` for a one-character pattern. -/
def jsReplaceAllCh (find : Char) (repl : Str) (s : Str) : Str :=
  concatMap (fun c => if c = find then repl else [c]) s

/-- `escapeHtml` of the chat page: the five sequential global replaces,
ampersand first. -/
def escapeHtml (s : Str) : Str :=
  jsReplaceAllCh (Char.ofNat 39) "&#039;".data
    (jsReplaceAllCh (Char.ofNat 34) "&quot;".data
      (jsReplaceAllCh '>' "&gt;".data
        (jsReplaceAllCh '<' "&lt;".data
          (jsReplaceAllCh '&' "&amp;".data s))))

/-- The intended per-character reading of `escapeHtml`: each special
character becomes its entity, everything else is kept verbatim. -/
def escMapChar (c : Char) : Str :=
  if c = '&' then "&amp;".data
  else if c = '<' then "&lt;".data
  else if c = '>' then "&gt;".data
  else if c = Char.ofNat 34 then "&quot;".data
  else if c = Char.ofNat 39 then "&#039;".data
  else [c]

/-- The opening tag emitted around a highlighted span. -/
def markOpen : Str := "<mark style=\"background-color:yellow\">".data

/-- The closing tag emitted around a highlighted span. -/
def markClose : Str := "</mark>".data

/-- `highlightTextToHTML`: empty text or no fragments short-circuits to
the escaped text; otherwise the matched text is wrapped in a `<mark>`
element. -/
def highlightTextToHTML (text : Str) (hs : List Str) : Str :=
  if text = [] ∨ hs = [] then escapeHtml text
  else if shouldHighlight text hs then markOpen ++ escapeHtml text ++ markClose
  else escapeHtml text

/-- The 2-word and 3-word sliding phrases of `pdfHighlights` (chat page
with per-PDF sources): for each window start, the joined-and-trimmed
2-word phrase when longer than 5 characters, then the 3-word phrase when
it exists and is longer than 8 characters. -/
def phraseSlices (ws : List Str) : List Str :=
  concatMap (fun i =>
      let p2 := jsTrim (joinSep ' ' ((ws.drop i).take 2))
      (if 5 < p2.length then [p2] else [])
        ++ (if i < ws.length - 2 then
              (let p3 := jsTrim (joinSep ' ' ((ws.drop i).take 3))
               if 8 < p3.length then [p3] else [])
            else []))
    (List.range (ws.length - 1))

/-- The individual-word pass of `pdfHighlights`: each word stripped of
non-alphanumeric characters, kept when longer than 3 characters. -/
def cleanWordsOf (ws : List Str) : List Str :=
  concatMap (fun w => let cw := w.filter isAlnum; if 3 < cw.length then [cw] else []) ws

/-- The fragment set `pdfHighlights` derives from one source's highlight
string: the whole trimmed string, the sliding phrases, the cleaned
words — deduplicated exactly (`new Set`) and restricted to length > 3. -/
def pdfHighlightsOne (s : Str) : List Str :=
  (jsSetDedup ([jsTrim s] ++ phraseSlices (jsSplitWs s) ++ cleanWordsOf (jsSplitWs s))).filter
    (fun h => 3 < h.length)

/-! ## Generic lemmas about the helper functions -/

theorem concatMap_append (f : α → List β) (a b : List α) :
    concatMap f (a ++ b) = concatMap f a ++ concatMap f b := by
  induction a with
  | nil => rfl
  | cons c t ih => simp [concatMap, ih]

theorem mem_concatMap {f : α → List β} {l : List α} {x : β} :
    x ∈ concatMap f l ↔ ∃ a ∈ l, x ∈ f a := by
  induction l with
  | nil => simp [concatMap]
  | cons c t ih => simp [concatMap, ih]

theorem splitSep_ne_nil (sep : Char) (l : Str) : splitSep sep l ≠ [] := by
  cases l with
  | nil => simp [splitSep]
  | cons c rest =>
    by_cases hc : c = sep
    · simp [splitSep, hc]
    · simp only [splitSep, if_neg hc]
      cases h : splitSep sep rest <;> simp

theorem not_mem_of_mem_splitSep {sep : Char} {l w : Str} (h : w ∈ splitSep sep l) : ¬ sep ∈ w := by
  induction l generalizing w with
  | nil =>
    simp [splitSep] at h
    subst h; simp
  | cons c rest ih =>
    by_cases hc : c = sep
    · simp only [splitSep, if_pos hc] at h
      rcases List.mem_cons.mp h with h | h
      · subst h; simp
      · exact ih h
    · simp only [splitSep, if_neg hc] at h
      rcases hsp : splitSep sep rest with _ | ⟨hw, hws⟩
      · exact absurd hsp (splitSep_ne_nil sep rest)
      · rw [hsp] at h
        rcases List.mem_cons.mp h with h | h
        · subst h
          intro hmem
          rcases List.mem_cons.mp hmem with h1 | h1
          · exact hc h1.symm
          · exact ih (hsp ▸ List.mem_cons_self hw hws) h1
        · exact ih (by rw [hsp]; exact List.mem_cons_of_mem hw h)

theorem splitSep_append_sep (sep : Char) (a b : Str) :
    splitSep sep (a ++ sep :: b) = splitSep sep a ++ splitSep sep b := by
  induction a with
  | nil => simp [splitSep]
  | cons c a2 ih =>
    rcases h : splitSep sep a2 with _ | ⟨w, ws⟩
    · exact absurd h (splitSep_ne_nil sep a2)
    · by_cases hc : c = sep
      · simp [splitSep, hc, ih]
      · simp [splitSep, if_neg hc, ih, h]

theorem splitSep_of_not_mem {sep : Char} {w : Str} (h : ¬ sep ∈ w) : splitSep sep w = [w] := by
  induction w with
  | nil => simp [splitSep]
  | cons c t ih =>
    have hc : ¬ c = sep := fun he => h (by rw [he]; exact List.mem_cons_self _ _)
    have ht : ¬ sep ∈ t := fun hm => h (List.mem_cons_of_mem _ hm)
    simp [splitSep, hc, ih ht]

theorem splitSep_joinSep (sep : Char) (L : List Str) (h : L ≠ []) :
    splitSep sep (joinSep sep L) = concatMap (splitSep sep) L := by
  induction L with
  | nil => exact absurd rfl h
  | cons w ws ih =>
    cases ws with
    | nil => simp [joinSep, concatMap]
    | cons y ys =>
      have hj : joinSep sep (w :: y :: ys) = w ++ sep :: joinSep sep (y :: ys) := rfl
      rw [hj, splitSep_append_sep, ih (by simp)]
      simp [concatMap]

theorem dropWhile_head_false {p : α → Bool} {l : List α} {c : α} {r : List α}
    (h : l.dropWhile p = c :: r) : p c = false := by
  induction l with
  | nil => simp [List.dropWhile] at h
  | cons a t ih =>
    rw [List.dropWhile_cons] at h
    split at h
    · exact ih h
    · cases h
      simpa using ‹¬ p c = true›

theorem dropWhile_idem (p : α → Bool) (l : List α) :
    (l.dropWhile p).dropWhile p = l.dropWhile p := by
  rcases h : l.dropWhile p with _ | ⟨c, r⟩
  · simp
  · have hc := dropWhile_head_false h
    simp [List.dropWhile_cons, hc]

theorem rtrimWs_prefix (s : Str) : rtrimWs s <+: s := by
  have h : (s.reverse.dropWhile isWsJs).reverse <+: s.reverse.reverse :=
    List.reverse_prefix.mpr (List.dropWhile_suffix isWsJs)
  rwa [List.reverse_reverse] at h

theorem ltrimWs_idem (s : Str) : ltrimWs (ltrimWs s) = ltrimWs s := dropWhile_idem _ _

theorem rtrimWs_idem (s : Str) : rtrimWs (rtrimWs s) = rtrimWs s := by
  unfold rtrimWs
  rw [List.reverse_reverse, dropWhile_idem]

theorem ltrimWs_rtrimWs_of_ltrimmed {y : Str} (hy : ltrimWs y = y) :
    ltrimWs (rtrimWs y) = rtrimWs y := by
  rcases hz : rtrimWs y with _ | ⟨c, r⟩
  · simp [ltrimWs]
  · have hpre : rtrimWs y <+: y := rtrimWs_prefix y
    rw [hz] at hpre
    rcases hpre with ⟨t2, ht2⟩
    have hdw : List.dropWhile isWsJs (c :: (r ++ t2)) = c :: (r ++ t2) := by
      have := hy
      unfold ltrimWs at this
      rw [← ht2] at this
      simpa using this
    rw [List.dropWhile_cons] at hdw
    by_cases hw : isWsJs c = true
    · rw [if_pos hw] at hdw
      have hlen := congrArg List.length hdw
      have hle : (List.dropWhile isWsJs (r ++ t2)).length ≤ (r ++ t2).length :=
        (List.dropWhile_suffix isWsJs).length_le
      rw [List.length_cons] at hlen
      omega
    · simp only [Bool.not_eq_true] at hw
      simp [ltrimWs, List.dropWhile_cons, hw]

theorem jsTrim_idem (s : Str) : jsTrim (jsTrim s) = jsTrim s := by
  unfold jsTrim
  rw [ltrimWs_rtrimWs_of_ltrimmed (ltrimWs_idem s), rtrimWs_idem]

theorem mem_of_mem_jsTrim {c : Char} {s : Str} (h : c ∈ jsTrim s) : c ∈ s := by
  unfold jsTrim rtrimWs ltrimWs at h
  rw [List.mem_reverse] at h
  have h1 := (List.dropWhile_suffix isWsJs).subset h
  rw [List.mem_reverse] at h1
  exact (List.dropWhile_suffix isWsJs).subset h1

theorem mem_insertLe {le : α → α → Bool} {x y : α} {l : List α} :
    y ∈ insertLe le x l ↔ y = x ∨ y ∈ l := by
  induction l with
  | nil => simp [insertLe]
  | cons z zs ih =>
    by_cases h : le x z = true
    · simp [insertLe, h]
    · simp only [insertLe, if_neg h, List.mem_cons, ih]
      tauto

theorem mem_sortLeList {le : α → α → Bool} {y : α} {l : List α} :
    y ∈ sortLeList le l ↔ y ∈ l := by
  induction l with
  | nil => simp [sortLeList]
  | cons x xs ih => simp [sortLeList, mem_insertLe, ih]

theorem mem_dedupGo {seen l : List Str} {y : Str} :
    y ∈ dedupGo seen l ↔ (y ∈ l ∧ ¬ y ∈ seen) := by
  induction l generalizing seen with
  | nil => simp [dedupGo]
  | cons x rest ih =>
    by_cases hx : x ∈ seen
    · rw [dedupGo, if_pos hx, ih]
      constructor
      · rintro ⟨h1, h2⟩
        exact ⟨List.mem_cons_of_mem _ h1, h2⟩
      · rintro ⟨h1, h2⟩
        rcases List.mem_cons.mp h1 with rfl | h1
        · exact absurd hx h2
        · exact ⟨h1, h2⟩
    · rw [dedupGo, if_neg hx]
      simp only [List.mem_cons, ih, List.mem_cons]
      constructor
      · rintro (rfl | ⟨h1, h2⟩)
        · exact ⟨Or.inl rfl, hx⟩
        · exact ⟨Or.inr h1, fun hm => h2 (Or.inr hm)⟩
      · rintro ⟨h1 | h1, h2⟩
        · exact Or.inl h1
        · by_cases hyx : y = x
          · exact Or.inl hyx
          · exact Or.inr ⟨h1, fun hm => h2 (hm.resolve_left hyx)⟩

theorem mem_jsSetDedup {l : List Str} {y : Str} : y ∈ jsSetDedup l ↔ y ∈ l := by
  unfold jsSetDedup
  rw [mem_dedupGo]
  simp

theorem nodup_dedupGo (seen l : List Str) : (dedupGo seen l).Nodup := by
  induction l generalizing seen with
  | nil => simp [dedupGo]
  | cons x rest ih =>
    by_cases hx : x ∈ seen
    · rw [dedupGo, if_pos hx]
      exact ih seen
    · rw [dedupGo, if_neg hx]
      refine List.nodup_cons.mpr ⟨fun hm => ?_, ih _⟩
      exact (mem_dedupGo.mp hm).2 (List.mem_cons_self _ _)

theorem nodup_jsSetDedup (l : List Str) : (jsSetDedup l).Nodup := nodup_dedupGo [] l

/-! ## Lemmas about the known-prefix store -/

theorem mem_parseKnown {s x : Str} :
    x ∈ parseKnown s ↔ ∃ p ∈ splitSep ',' s, jsTrim p = x ∧ x ≠ [] := by
  simp only [parseKnown, List.mem_filter, List.mem_map, decide_eq_true_eq]
  constructor
  · rintro ⟨⟨p, hp, rfl⟩, hne⟩
    exact ⟨p, hp, rfl, hne⟩
  · rintro ⟨p, hp, rfl, hne⟩
    exact ⟨⟨p, hp, rfl⟩, hne⟩

theorem parseKnown_props {s x : Str} (h : x ∈ parseKnown s) :
    ¬ ',' ∈ x ∧ jsTrim x = x ∧ x ≠ [] := by
  rcases mem_parseKnown.mp h with ⟨p, hp, rfl, hne⟩
  refine ⟨fun hc => ?_, jsTrim_idem p, hne⟩
  exact not_mem_of_mem_splitSep hp (mem_of_mem_jsTrim hc)

theorem parseKnown_nil : parseKnown ([] : Str) = [] := by decide

theorem mem_parseKnown_joinSep {L : List Str} {x : Str} (hL : L ≠ []) :
    x ∈ parseKnown (joinSep ',' L) ↔
      ∃ z ∈ L, ∃ p ∈ splitSep ',' z, jsTrim p = x ∧ x ≠ [] := by
  rw [mem_parseKnown]
  constructor
  · rintro ⟨p, hp, rfl, hne⟩
    rw [splitSep_joinSep ',' L hL] at hp
    rcases mem_concatMap.mp hp with ⟨z, hz, hpz⟩
    exact ⟨z, hz, p, hpz, rfl, hne⟩
  · rintro ⟨z, hz, p, hpz, rfl, hne⟩
    refine ⟨p, ?_, rfl, hne⟩
    rw [splitSep_joinSep ',' L hL]
    exact mem_concatMap.mpr ⟨z, hz, hpz⟩

theorem self_mem_parseKnown_joinSep {L : List Str} {x : Str}
    (hx : x ∈ L) (hcm : ¬ ',' ∈ x) (htr : jsTrim x = x) (hne : x ≠ []) :
    x ∈ parseKnown (joinSep ',' L) := by
  refine (mem_parseKnown_joinSep (List.ne_nil_of_mem hx)).mpr ⟨x, hx, x, ?_, htr, hne⟩
  rw [splitSep_of_not_mem hcm]
  exact List.mem_cons_self _ _

theorem remember_mem_mono {stored x : Str} {segs : List Str} (h : x ∈ parseKnown stored) :
    x ∈ parseKnown (rememberStr stored segs) := by
  rcases parseKnown_props h with ⟨hcm, htr, hne⟩
  unfold rememberStr
  refine self_mem_parseKnown_joinSep ?_ hcm htr hne
  rw [mem_sortLeList, mem_jsSetDedup]
  exact List.mem_append_left _ h

theorem remember_set_idem {stored x : Str} {segs : List Str} :
    x ∈ parseKnown (rememberStr (rememberStr stored segs) segs) ↔
      x ∈ parseKnown (rememberStr stored segs) := by
  constructor
  · intro h
    rw [rememberStr] at h
    rcases hL2 : sortLeList (fun a b => decide (strCmpInt a b ≤ 0))
        (jsSetDedup (parseKnown (rememberStr stored segs) ++ segs)) with _ | ⟨z0, L2t⟩
    · rw [hL2] at h
      simp only [joinSep] at h
      rw [parseKnown_nil] at h
      exact absurd h (List.not_mem_nil x)
    · rw [hL2] at h
      rcases (mem_parseKnown_joinSep (by simp)).mp h with ⟨z, hz, p, hpz, hxp, hxne⟩
      have hz2 : z ∈ parseKnown (rememberStr stored segs) ++ segs := by
        have hzz : z ∈ sortLeList (fun a b => decide (strCmpInt a b ≤ 0))
            (jsSetDedup (parseKnown (rememberStr stored segs) ++ segs)) := by
          rw [hL2]
          exact hz
        rw [mem_sortLeList, mem_jsSetDedup] at hzz
        exact hzz
      rcases List.mem_append.mp hz2 with hz3 | hz3
      · rcases parseKnown_props hz3 with ⟨hcm, htr, _⟩
        rw [splitSep_of_not_mem hcm] at hpz
        rcases List.mem_cons.mp hpz with rfl | hpz2
        · rw [htr] at hxp
          rw [← hxp]
          exact hz3
        · exact absurd hpz2 (List.not_mem_nil p)
      · rw [rememberStr]
        have hzL1 : z ∈ sortLeList (fun a b => decide (strCmpInt a b ≤ 0))
            (jsSetDedup (parseKnown stored ++ segs)) := by
          rw [mem_sortLeList, mem_jsSetDedup]
          exact List.mem_append_right _ hz3
        exact (mem_parseKnown_joinSep (List.ne_nil_of_mem hzL1)).mpr
          ⟨z, hzL1, p, hpz, hxp, hxne⟩
  · exact fun h => remember_mem_mono h

/-! ## Lemmas about `escapeHtml` -/

theorem escapeHtml_append (a b : Str) : escapeHtml (a ++ b) = escapeHtml a ++ escapeHtml b := by
  simp [escapeHtml, jsReplaceAllCh, concatMap_append]

theorem escapeHtml_singleton (c : Char) : escapeHtml [c] = escMapChar c := by
  by_cases h1 : c = '&'
  · subst h1; decide
  · by_cases h2 : c = '<'
    · subst h2; decide
    · by_cases h3 : c = '>'
      · subst h3; decide
      · by_cases h4 : c = Char.ofNat 34
        · subst h4; decide
        · by_cases h5 : c = Char.ofNat 39
          · subst h5; decide
          · simp [escapeHtml, jsReplaceAllCh, concatMap, escMapChar, h1, h2, h3, h4, h5]

theorem escapeHtml_eq_concatMap (s : Str) : escapeHtml s = concatMap escMapChar s := by
  induction s with
  | nil => rfl
  | cons c t ih =>
    have h : escapeHtml (c :: t) = escapeHtml [c] ++ escapeHtml t := by
      have hct : (c :: t) = [c] ++ t := rfl
      rw [hct, escapeHtml_append]
    rw [h, escapeHtml_singleton, ih]
    rfl

theorem escMapChar_no_raw (c : Char) :
    ∀ d ∈ escMapChar c, ¬(d = '<' ∨ d = '>' ∨ d = Char.ofNat 34 ∨ d = Char.ofNat 39) := by
  by_cases h1 : c = '&'
  · subst h1; decide
  · by_cases h2 : c = '<'
    · subst h2; decide
    · by_cases h3 : c = '>'
      · subst h3; decide
      · by_cases h4 : c = Char.ofNat 34
        · subst h4; decide
        · by_cases h5 : c = Char.ofNat 39
          · subst h5; decide
          · intro d hd
            have : d = c := by simpa [escMapChar, h1, h2, h3, h4, h5] using hd
            subst this
            tauto

theorem escapeHtml_no_raw (s : Str) :
    ∀ d ∈ escapeHtml s, ¬(d = '<' ∨ d = '>' ∨ d = Char.ofNat 34 ∨ d = Char.ofNat 39) := by
  intro d hd
  rw [escapeHtml_eq_concatMap] at hd
  rcases mem_concatMap.mp hd with ⟨c, _, hdc⟩
  exact escMapChar_no_raw c d hdc

/-! ## Lemmas about `parentPrefix` -/

theorem concatMap_splitSep_id {sep : Char} {segs : List Str} (h : ∀ s ∈ segs, ¬ sep ∈ s) :
    concatMap (splitSep sep) segs = segs := by
  induction segs with
  | nil => rfl
  | cons a t ih =>
    rw [concatMap, splitSep_of_not_mem (h a (List.mem_cons_self a t)),
      ih (fun s hs => h s (List.mem_cons_of_mem _ hs))]
    rfl

theorem splitSep_locOf {segs : List Str} (hne : segs ≠ [])
    (h : ∀ s ∈ segs, s ≠ [] ∧ ¬ '/' ∈ s) :
    splitSep '/' (locOf segs) = segs ++ [[]] := by
  rw [locOf, if_neg hne]
  have hsplit : joinSep '/' segs ++ ['/'] = joinSep '/' segs ++ '/' :: [] := rfl
  rw [hsplit, splitSep_append_sep, splitSep_joinSep '/' segs hne,
    concatMap_splitSep_id (fun s hs => (h s hs).2)]
  rfl

theorem parentPrefix_locOf {segs : List Str} (h : ∀ s ∈ segs, s ≠ [] ∧ ¬ '/' ∈ s) :
    parentPrefix (locOf segs) = locOf segs.dropLast := by
  by_cases hne : segs = []
  · subst hne; rfl
  · have hloc_ne : locOf segs ≠ [] := by
      rw [locOf, if_neg hne]
      intro hc
      exact absurd (List.append_eq_nil.mp hc).2 (by simp)
    have hfil : ((segs ++ [[]]).filter (fun s => decide (s ≠ []))) = segs := by
      rw [List.filter_append]
      have h2 : List.filter (fun s => decide (s ≠ [])) [([] : Str)] = [] := rfl
      rw [h2, List.append_nil]
      refine List.filter_eq_self.mpr ?_
      intro a ha
      simpa using (h a ha).1
    rw [parentPrefix, if_neg hloc_ne]
    simp only [splitSep_locOf hne h, hfil]
    by_cases hdl : segs.dropLast = []
    · rw [hdl]
      simp [locOf]
    · rw [if_neg hdl, locOf, if_neg hdl]

/-! ## Lemmas about interleaved `load` traces -/

theorem display_const_of_no_success {evs : List DocsEv} (h : lastSuccessData evs = none)
    (st : DocsState) :
    (runDocs st evs).pfx = st.pfx ∧ (runDocs st evs).folders = st.folders ∧
      (runDocs st evs).files = st.files := by
  induction evs generalizing st with
  | nil => exact ⟨rfl, rfl, rfl⟩
  | cons e rest ih =>
    have hrest : lastSuccessData rest = none := by
      rcases hx : lastSuccessData rest with _ | x
      · rfl
      · exfalso
        have hsx : lastSuccessData (e :: rest) = some x := by
          simp [lastSuccessData, hx]
        rw [hsx] at h
        cases h
    have hrun : runDocs st (e :: rest) = runDocs (stepDocs st e) rest := rfl
    cases e with
    | begin =>
      rw [hrun]
      rcases ih hrest (stepDocs st DocsEv.begin) with ⟨i1, i2, i3⟩
      exact ⟨i1.trans rfl, i2.trans rfl, i3.trans rfl⟩
    | failure =>
      rw [hrun]
      rcases ih hrest (stepDocs st DocsEv.failure) with ⟨i1, i2, i3⟩
      exact ⟨i1.trans rfl, i2.trans rfl, i3.trans rfl⟩
    | success p l =>
      exfalso
      have hs : lastSuccessData (DocsEv.success p l :: rest) = some (p, l) := by
        simp [lastSuccessData, hrest]
      rw [hs] at h
      cases h

/-! ## Claim theorems -/

/-- C1 counterexample: with files `a`, `b`, filter "a" and page size 1,
the source computes `totalPages` from the unfiltered list (2 pages)
while the claimed formula over the filtered count gives 1; and the page
slice at the out-of-range page 2 is empty rather than the last
non-empty page's rows.  This refutes the claim that `totalPages` counts
only the files passing the name filter and that an out-of-range page is
clamped to the last page's contents. -/
theorem c1_counterexample :
    totalPages [FileRec.mk ['a'] 1 none, FileRec.mk ['b'] 1 none] 1 = 2
    ∧ specTotalPagesFiltered
        (sortedFilteredFiles [] ['a'] SortKey.name SortDir.asc
          [FileRec.mk ['a'] 1 none, FileRec.mk ['b'] 1 none]).length 1 = 1
    ∧ (2 : Nat) ≠ 1
    ∧ pagedFiles
        (sortedFilteredFiles [] ['a'] SortKey.name SortDir.asc
          [FileRec.mk ['a'] 1 none, FileRec.mk ['b'] 1 none]) 2 1 = []
    ∧ sortedFilteredFiles [] ['a'] SortKey.name SortDir.asc
        [FileRec.mk ['a'] 1 none, FileRec.mk ['b'] 1 none] ≠ [] := by
  decide

/-- C1 (amended): `totalPages` equals `max(1, ceil(totalFileCount /
pageSize))` over the **unfiltered** file list (120 files at page size 50
give 3); the Prev/Next pager transitions clamp the page into
`[1, totalPages]`; the page slice itself does not clamp — a page whose
start offset is past the filtered rows yields the empty row list, and a
page whose start offset is in range yields a non-empty one. -/
theorem c1_pagination :
    totalPages (List.replicate 120 (FileRec.mk [] 0 none)) 50 = 3
    ∧ (∀ p tp : Nat, 1 ≤ p → p ≤ tp →
        1 ≤ pagerNext tp p ∧ pagerNext tp p ≤ tp ∧ 1 ≤ pagerPrev p ∧ pagerPrev p ≤ tp)
    ∧ (∀ (l : List NamedFile) (page rows : Nat),
        l.length ≤ (page - 1) * rows → pagedFiles l page rows = [])
    ∧ (∀ (l : List NamedFile) (page rows : Nat), 1 ≤ rows →
        (page - 1) * rows < l.length → pagedFiles l page rows ≠ []) := by
  refine ⟨?_, ?_, ?_, ?_⟩
  · simp [totalPages]
  · intro p tp h1 h2
    unfold pagerNext pagerPrev
    omega
  · intro l page rows h
    unfold pagedFiles
    rw [List.drop_eq_nil_of_le h]
    exact List.take_nil
  · intro l page rows hr h
    unfold pagedFiles
    intro hc
    have hlen := congrArg List.length hc
    rw [List.length_take, List.length_drop] at hlen
    simp at hlen
    omega

/-- C1 witness. -/
theorem c1_pagination_witness :
    (([] : List NamedFile).length ≤ (5 - 1) * 3) ∧ pagedFiles [] 5 3 = [] :=
  ⟨by decide, c1_pagination.2.2.1 [] 5 3 (by decide)⟩

/-- C2 counterexample: a listing for Location `a/` is in flight, the
user navigates to `b/`, the `b/` response resolves first, and the stale
`a/` response resolves last.  `load` applies it unconditionally, so the
displayed Location and folders are those of `a/` — not of the most
recently requested Location `b/`. -/
theorem c2_counterexample :
    (runDocs initialDocsState
        [DocsEv.begin, DocsEv.begin,
          DocsEv.success "b/".data (Listing.mk ["b/sub/".data] []),
          DocsEv.success "a/".data (Listing.mk ["a/sub/".data] [])]).pfx = "a/".data
    ∧ (runDocs initialDocsState
        [DocsEv.begin, DocsEv.begin,
          DocsEv.success "b/".data (Listing.mk ["b/sub/".data] []),
          DocsEv.success "a/".data (Listing.mk ["a/sub/".data] [])]).folders = ["a/sub/".data]
    ∧ "a/".data ≠ "b/".data
    ∧ ["a/sub/".data] ≠ ["b/sub/".data] := by
  decide

/-- C2 (amended): the displayed prefix, folders and files after any
interleaving of `load` activity are those of the most recently
**resolved** listing response — the three are always set together from
one response, but a stale response that resolves last does overwrite a
newer Location's state (the code has no request tag guard). -/
theorem c2_last_response_wins :
    ∀ (st : DocsState) (evs : List DocsEv) (ps : Str) (l : Listing),
      lastSuccessData evs = some (ps, l) →
      (runDocs st evs).pfx = ps ∧ (runDocs st evs).folders = l.folders ∧
        (runDocs st evs).files = l.files := by
  intro st evs
  induction evs generalizing st with
  | nil => intro ps l h; cases h
  | cons e rest ih =>
    intro ps l h
    have hrun : runDocs st (e :: rest) = runDocs (stepDocs st e) rest := rfl
    rcases hx : lastSuccessData rest with _ | x
    · cases e with
      | success p2 l2 =>
        have hs : lastSuccessData (DocsEv.success p2 l2 :: rest) = some (p2, l2) := by
          simp [lastSuccessData, hx]
        rw [hs] at h
        have h2 := Option.some.inj h
        have hps : p2 = ps := congrArg Prod.fst h2
        have hl : l2 = l := congrArg Prod.snd h2
        subst hps
        subst hl
        rw [hrun]
        have hc := display_const_of_no_success hx (stepDocs st (DocsEv.success p2 l2))
        exact ⟨hc.1.trans rfl, hc.2.1.trans rfl, hc.2.2.trans rfl⟩
      | begin =>
        have hb : lastSuccessData (DocsEv.begin :: rest) = none := by
          simp [lastSuccessData, hx]
        rw [hb] at h
        cases h
      | failure =>
        have hb : lastSuccessData (DocsEv.failure :: rest) = none := by
          simp [lastSuccessData, hx]
        rw [hb] at h
        cases h
    · have hs : lastSuccessData (e :: rest) = some x := by
        simp [lastSuccessData, hx]
      rw [hs] at h
      injection h with h2
      rw [hrun]
      exact ih (stepDocs st e) ps l (by rw [hx, h2])

/-- C2 witness. -/
theorem c2_last_response_wins_witness :
    lastSuccessData [DocsEv.success "a/".data (Listing.mk [] [])] = some ("a/".data, Listing.mk [] [])
    ∧ ((runDocs initialDocsState [DocsEv.success "a/".data (Listing.mk [] [])]).pfx = "a/".data
      ∧ (runDocs initialDocsState [DocsEv.success "a/".data (Listing.mk [] [])]).folders = []
      ∧ (runDocs initialDocsState [DocsEv.success "a/".data (Listing.mk [] [])]).files = []) :=
  ⟨by decide,
    c2_last_response_wins initialDocsState [DocsEv.success "a/".data (Listing.mk [] [])]
      "a/".data (Listing.mk [] []) (by decide)⟩

/-- C3 counterexample: after a successful listing of `a/` (one folder,
one file), a failing `load` sets the error banner but leaves the
previously displayed folders (and files) on screen — they are not
blanked, refuting the claimed empty result set. -/
theorem c3_counterexample :
    (stepDocs (stepDocs
        (applyResponse initialDocsState "a/".data
          (Listing.mk ["a/x/".data] [FileRec.mk "a/f.pdf".data 7 none]))
        DocsEv.begin) DocsEv.failure).folders = ["a/x/".data]
    ∧ (stepDocs (stepDocs
        (applyResponse initialDocsState "a/".data
          (Listing.mk ["a/x/".data] [FileRec.mk "a/f.pdf".data 7 none]))
        DocsEv.begin) DocsEv.failure).files = [FileRec.mk "a/f.pdf".data 7 none]
    ∧ (stepDocs (stepDocs
        (applyResponse initialDocsState "a/".data
          (Listing.mk ["a/x/".data] [FileRec.mk "a/f.pdf".data 7 none]))
        DocsEv.begin) DocsEv.failure).err = errMsg
    ∧ (["a/x/".data] : List Str) ≠ [] := by
  decide

/-- C3 (amended): a failing listing call surfaces the error banner text
and otherwise changes nothing — the previously displayed folders, files
and Location stay (stale data is kept, not blanked), and the ViewState
(filter text, sort key and direction, page) is preserved. -/
theorem c3_failure_keeps_listing :
    ∀ st : DocsState,
      (stepDocs (stepDocs st DocsEv.begin) DocsEv.failure).err = errMsg
      ∧ (stepDocs (stepDocs st DocsEv.begin) DocsEv.failure).folders = st.folders
      ∧ (stepDocs (stepDocs st DocsEv.begin) DocsEv.failure).files = st.files
      ∧ (stepDocs (stepDocs st DocsEv.begin) DocsEv.failure).pfx = st.pfx
      ∧ (stepDocs (stepDocs st DocsEv.begin) DocsEv.failure).filterText = st.filterText
      ∧ (stepDocs (stepDocs st DocsEv.begin) DocsEv.failure).sortKey = st.sortKey
      ∧ (stepDocs (stepDocs st DocsEv.begin) DocsEv.failure).sortDir = st.sortDir
      ∧ (stepDocs (stepDocs st DocsEv.begin) DocsEv.failure).page = st.page := by
  intro st
  exact ⟨rfl, rfl, rfl, rfl, rfl, rfl, rfl, rfl⟩

/-- C4: the Span Matcher's policy.  Exact normalized equality with any
fragment is a match; a single-token span matches a multi-word fragment
exactly when the normalized token is one of the fragment's normalized
words; `shouldHighlight("Amoxicillin", ["prescribed amoxicillin"])` is
true and `shouldHighlight("and", ["prescribed amoxicillin"])` is
false. -/
theorem c4_span_matcher :
    (∀ (text : Str) (frags : List Str), ∀ h ∈ frags,
        normalizeText text = normalizeText h → shouldHighlight text frags = true)
    ∧ (∀ t f : Str, normalizeText t ≠ [] → ¬ ' ' ∈ normalizeText t → ' ' ∈ normalizeText f →
        (matchesFragment t f = true ↔ normalizeText t ∈ splitSep ' ' (normalizeText f)))
    ∧ shouldHighlight "Amoxicillin".data ["prescribed amoxicillin".data] = true
    ∧ shouldHighlight "and".data ["prescribed amoxicillin".data] = false := by
  refine ⟨?_, ?_, by decide, by decide⟩
  · intro text frags h hmem heq
    rw [shouldHighlight, List.any_eq_true]
    refine ⟨h, hmem, ?_⟩
    simp only [matchesFragment]
    rw [if_pos heq]
  · intro t f hne hnt hnf
    have hneq : normalizeText t ≠ normalizeText f := by
      intro he
      rw [he] at hnt
      exact hnt hnf
    have hand : ¬(¬ ' ' ∈ normalizeText f ∧ ¬ ' ' ∈ normalizeText t) := by tauto
    have hsingle : splitSep ' ' (normalizeText t) = [normalizeText t] := splitSep_of_not_mem hnt
    constructor
    · intro hm
      simp only [matchesFragment] at hm
      rw [if_neg hneq, if_neg hand, if_pos hnf, List.all_eq_true] at hm
      have hx := hm (normalizeText t) (by rw [hsingle]; exact List.mem_cons_self _ _)
      simpa using hx
    · intro hmem
      simp only [matchesFragment]
      rw [if_neg hneq, if_neg hand, if_pos hnf, List.all_eq_true]
      intro w hw
      rw [hsingle] at hw
      rcases List.mem_cons.mp hw with rfl | hw2
      · simpa using hmem
      · exact absurd hw2 (List.not_mem_nil w)

/-- C4 witness. -/
theorem c4_span_matcher_witness :
    matchesFragment "Amoxicillin".data "prescribed amoxicillin".data = true
    ∧ shouldHighlight "Dr Tan".data ["dr. tan!".data] = true :=
  ⟨(c4_span_matcher.2.1 "Amoxicillin".data "prescribed amoxicillin".data
      (by decide) (by decide) (by decide)).mpr (by decide),
    c4_span_matcher.1 "Dr Tan".data ["dr. tan!".data] "dr. tan!".data
      (by decide) (by decide)⟩

/-- C5 counterexample: on the highlight string `"Amox amox"` the
extractor emits both `"Amox"` and `"amox"` — two distinct fragments that
are equal ignoring case — so the fragment set is *not* deduplicated
case-insensitively (the `new Set` dedup is exact). -/
theorem c5_counterexample :
    "Amox".data ∈ pdfHighlightsOne "Amox amox".data
    ∧ "amox".data ∈ pdfHighlightsOne "Amox amox".data
    ∧ lowerStr "Amox".data = lowerStr "amox".data
    ∧ "Amox".data ≠ "amox".data := by
  decide

/-- C5 (amended): on `"Dr. Tan: prescribed Amoxicillin"` the extractor
yields fragments that normalize (lowercase, punctuation stripped) to
`"dr tan"`, `"prescribed amoxicillin"` and `"amoxicillin"`; and for
every input the fragment list is deduplicated *exactly* (no two equal
fragments survive), not case-insensitively. -/
theorem c5_extractor :
    (∀ s : Str, (pdfHighlightsOne s).Nodup)
    ∧ "dr tan".data ∈ (pdfHighlightsOne "Dr. Tan: prescribed Amoxicillin".data).map normalizeText
    ∧ "prescribed amoxicillin".data ∈
        (pdfHighlightsOne "Dr. Tan: prescribed Amoxicillin".data).map normalizeText
    ∧ "amoxicillin".data ∈
        (pdfHighlightsOne "Dr. Tan: prescribed Amoxicillin".data).map normalizeText := by
  refine ⟨?_, by decide, by decide, by decide⟩
  intro s
  exact (nodup_jsSetDedup _).filter _

/-- C6 counterexample: with a file lacking a timestamp listed after one
carrying a timestamp, the source's date comparison is NaN (treated as
equal) and the stable sort leaves the order unchanged — unlike the
claimed epoch-0 ordering, which would move the timestampless entry
first; and with two equal sizes, flipping the direction does not
reverse the projected order (ties stay put under a stable sort). -/
theorem c6_counterexample :
    sortedFilteredFiles [] [] SortKey.date SortDir.asc
        [FileRec.mk ['b'] 1 (some 100), FileRec.mk ['a'] 1 none]
      ≠ specDateSortEpoch0 SortDir.asc
          [NamedFile.mk ['b'] 1 (some 100) ['b'], NamedFile.mk ['a'] 1 none ['a']]
    ∧ sortedFilteredFiles [] [] SortKey.size SortDir.desc
        [FileRec.mk ['x'] 5 none, FileRec.mk ['y'] 5 none]
      ≠ (sortedFilteredFiles [] [] SortKey.size SortDir.asc
          [FileRec.mk ['x'] 5 none, FileRec.mk ['y'] 5 none]).reverse := by
  decide

/-- C6 (amended): sorting sizes [300, 10, 2048] ascending projects
[10, 300, 2048] and descending projects [2048, 300, 10]; flipping the
direction negates the comparator for every sort key (hence reverses the
order whenever all compared values are distinct and comparable); and
under the date key an entry without a parseable timestamp compares as
equal to anything (the NaN comparison is coerced to +0), not as epoch
0. -/
theorem c6_sorting :
    (sortedFilteredFiles [] [] SortKey.size SortDir.asc
        [FileRec.mk ['a'] 300 none, FileRec.mk ['b'] 10 none,
          FileRec.mk ['c'] 2048 none]).map (fun f => f.size) = [10, 300, 2048]
    ∧ (sortedFilteredFiles [] [] SortKey.size SortDir.desc
        [FileRec.mk ['a'] 300 none, FileRec.mk ['b'] 10 none,
          FileRec.mk ['c'] 2048 none]).map (fun f => f.size) = [2048, 300, 10]
    ∧ (∀ (k : SortKey) (a b : NamedFile),
        sortCmp k SortDir.desc a b = (sortCmp k SortDir.asc a b).map (fun v => -v))
    ∧ (∀ (d : SortDir) (a b : NamedFile), a.lastModified = none →
        sortLeB SortKey.date d a b = true ∧ sortLeB SortKey.date d b a = true) := by
  refine ⟨by decide, by decide, ?_, ?_⟩
  · intro k a b
    rcases h : cmpRaw k a b with _ | v
    · simp [sortCmp, h]
    · simp [sortCmp, h]
  · intro d a b hlm
    rcases hb : b.lastModified with _ | t
    · constructor <;> simp [sortLeB, sortCmp, cmpRaw, hlm, hb]
    · constructor <;> simp [sortLeB, sortCmp, cmpRaw, hlm, hb]

/-- C6 witness. -/
theorem c6_sorting_witness :
    (NamedFile.mk ['a'] 1 none ['a']).lastModified = none
    ∧ (sortLeB SortKey.date SortDir.asc (NamedFile.mk ['a'] 1 none ['a'])
          (NamedFile.mk ['b'] 1 (some 100) ['b']) = true
        ∧ sortLeB SortKey.date SortDir.asc (NamedFile.mk ['b'] 1 (some 100) ['b'])
            (NamedFile.mk ['a'] 1 none ['a']) = true) :=
  ⟨rfl, c6_sorting.2.2.2 SortDir.asc (NamedFile.mk ['a'] 1 none ['a'])
      (NamedFile.mk ['b'] 1 (some 100) ['b']) rfl⟩

/-- C7: Prefix Memory.  `remember(["a/","b/"])` then `remember(["a/"])`
leaves exactly the stored set `{"a/", "b/"}`; every entry of the parsed
persisted set survives any further `remember` call (monotonicity); and
merging the same segments twice leaves the parsed set unchanged
(idempotence). -/
theorem c7_prefix_memory :
    parseKnown (rememberStr (rememberStr [] ["a/".data, "b/".data]) ["a/".data])
      = ["a/".data, "b/".data]
    ∧ (∀ (stored : Str) (segs : List Str) (x : Str),
        x ∈ parseKnown stored → x ∈ parseKnown (rememberStr stored segs))
    ∧ (∀ (stored : Str) (segs : List Str) (x : Str),
        x ∈ parseKnown (rememberStr (rememberStr stored segs) segs)
          ↔ x ∈ parseKnown (rememberStr stored segs)) :=
  ⟨by decide, fun _ _ _ h => remember_mem_mono h, fun _ _ _ => remember_set_idem⟩

/-- C7 witness. -/
theorem c7_prefix_memory_witness :
    "a/".data ∈ parseKnown "a/".data
    ∧ "a/".data ∈ parseKnown (rememberStr "a/".data ["b/".data]) :=
  ⟨by decide, c7_prefix_memory.2.1 "a/".data ["b/".data] "a/".data (by decide)⟩

/-- C8: `parentPrefix("") = ""`; on any Location built from non-empty
separator-free segments, `parentPrefix` strips exactly the last segment
(so applying it twice to a 3-segment Location yields the 1-segment
Location); and every `parentPrefix` result is again a valid Location —
empty or ending in the separator. -/
theorem c8_parent :
    parentPrefix [] = []
    ∧ (∀ segs : List Str, (∀ s ∈ segs, s ≠ [] ∧ ¬ '/' ∈ s) →
        parentPrefix (locOf segs) = locOf segs.dropLast)
    ∧ (∀ a b c : Str, (∀ s ∈ [a, b, c], s ≠ [] ∧ ¬ '/' ∈ s) →
        parentPrefix (parentPrefix (locOf [a, b, c])) = locOf [a])
    ∧ (∀ p : Str, parentPrefix p = [] ∨ ∃ q, parentPrefix p = q ++ ['/']) := by
  refine ⟨rfl, fun segs h => parentPrefix_locOf h, ?_, ?_⟩
  · intro a b c h
    have hsub : ∀ s ∈ ([a, b] : List Str), s ≠ [] ∧ ¬ '/' ∈ s := by
      intro s hs
      rcases List.mem_cons.mp hs with rfl | hs2
      · exact h s (by simp)
      · rcases List.mem_cons.mp hs2 with rfl | hs3
        · exact h s (by simp)
        · exact absurd hs3 (List.not_mem_nil s)
    have h1 := parentPrefix_locOf h
    have hd1 : ([a, b, c] : List Str).dropLast = [a, b] := rfl
    rw [hd1] at h1
    have h2 := parentPrefix_locOf hsub
    have hd2 : ([a, b] : List Str).dropLast = [a] := rfl
    rw [hd2] at h2
    rw [h1, h2]
  · intro p
    by_cases hp : p = []
    · subst hp
      exact Or.inl rfl
    · simp only [parentPrefix, if_neg hp]
      by_cases hparts : ((splitSep '/' p).filter (fun s => decide (s ≠ []))).dropLast = []
      · rw [if_pos hparts]
        exact Or.inl rfl
      · rw [if_neg hparts]
        exact Or.inr ⟨_, rfl⟩

/-- C8 witness. -/
theorem c8_parent_witness :
    (∀ s ∈ ([['a'], ['b'], ['c']] : List Str), s ≠ [] ∧ ¬ '/' ∈ s)
    ∧ parentPrefix (parentPrefix (locOf [['a'], ['b'], ['c']])) = locOf [['a']] :=
  ⟨by decide, c8_parent.2.2.1 ['a'] ['b'] ['c'] (by decide)⟩

/-- C9 counterexample: for the stored preference string `"abc"`,
`Number("abc")` is NaN, `Math.min`/`Math.max` propagate it, and the
effective rows-per-page is NaN — no value in [1, 500] at all, refuting
the claim for that stored value. -/
theorem c9_counterexample :
    ¬ ∃ q : ℚ, effRowsPerPage (some ['a', 'b', 'c']) = some q ∧ 1 ≤ q ∧ q ≤ 500 := by
  rintro ⟨q, hq, -⟩
  rw [show effRowsPerPage (some ['a', 'b', 'c']) = none from by decide] at hq
  cases hq

/-- C9 (amended): whenever the stored preference produces a numeric
value at all, the effective rows-per-page lies in [1, 500], and it is 50
when no preference is stored; a stored string on which `Number` yields
NaN produces no numeric row count. -/
theorem c9_rows_clamped :
    (∀ (stored : Option Str) (q : ℚ), effRowsPerPage stored = some q → 1 ≤ q ∧ q ≤ 500)
    ∧ effRowsPerPage none = some 50 := by
  constructor
  · have hb : ∀ x : ℚ, 1 ≤ jsMax 1 (jsMin 500 x) ∧ jsMax 1 (jsMin 500 x) ≤ 500 := by
      intro x
      unfold jsMax jsMin
      split_ifs with h1 h2 h3 <;> constructor <;> linarith
    intro stored q h
    rcases stored with _ | s
    · have hn : effRowsPerPage none = some (jsMax 1 (jsMin 500 50)) := rfl
      rw [hn] at h
      rw [← Option.some.inj h]
      exact hb 50
    · by_cases hs : s = []
      · subst hs
        have hn : effRowsPerPage (some []) = some (jsMax 1 (jsMin 500 50)) := rfl
        rw [hn] at h
        rw [← Option.some.inj h]
        exact hb 50
      · rcases hjs : jsToNumber s with _ | x
        · have hn : effRowsPerPage (some s) = none := by
            simp [effRowsPerPage, hs, hjs]
          rw [hn] at h
          cases h
        · have hn : effRowsPerPage (some s) = some (jsMax 1 (jsMin 500 x)) := by
            simp [effRowsPerPage, hs, hjs]
          rw [hn] at h
          rw [← Option.some.inj h]
          exact hb x
  · decide

/-- C9 witness. -/
theorem c9_rows_clamped_witness :
    effRowsPerPage (some ['7']) = some 7 ∧ (1 ≤ (7 : ℚ) ∧ (7 : ℚ) ≤ 500) :=
  ⟨by decide, c9_rows_clamped.1 (some ['7']) 7 (by decide)⟩

/-- C10: `highlightTextToHTML` returns either the HTML-escaped text or
the HTML-escaped text wrapped in exactly one `<mark>` element;
`escapeHtml` rewrites each input character independently (specials to
their entities, everything else verbatim), so no `<`, `>`, quote or
apostrophe from the input survives unescaped in the emitted HTML. -/
theorem c10_escaping :
    ∀ (text : Str) (hs : List Str),
      (highlightTextToHTML text hs = escapeHtml text
        ∨ highlightTextToHTML text hs = markOpen ++ escapeHtml text ++ markClose)
      ∧ escapeHtml text = concatMap escMapChar text
      ∧ (∀ d ∈ escapeHtml text,
          ¬(d = '<' ∨ d = '>' ∨ d = Char.ofNat 34 ∨ d = Char.ofNat 39)) := by
  intro text hs
  refine ⟨?_, escapeHtml_eq_concatMap text, escapeHtml_no_raw text⟩
  by_cases h1 : text = [] ∨ hs = []
  · left
    simp only [highlightTextToHTML]
    rw [if_pos h1]
  · by_cases h2 : shouldHighlight text hs = true
    · right
      simp only [highlightTextToHTML]
      rw [if_neg h1, if_pos h2]
    · left
      simp only [highlightTextToHTML]
      rw [if_neg h1, if_neg h2]

/-- C10 witness. -/
theorem c10_escaping_witness :
    '&' ∈ escapeHtml "a&b".data
    ∧ ¬('&' = '<' ∨ '&' = '>' ∨ '&' = Char.ofNat 34 ∨ '&' = Char.ofNat 39) :=
  ⟨by decide, (c10_escaping "a&b".data []).2.2 '&' (by decide)⟩
